import Mathlib

/-!
Verification of the `repackage` crate (`src/lib.rs`, function `dot_crate`)
against its natural-language specification.

The embedding models strings as `List Char`, file paths as lists of
components (`List (List Char)`), and raw file bytes as `List Nat`.
External black boxes (the manifest library's parse/serialize, the tar
checksum function) are passed in as parameters of an `Env` record, exactly
as the spec treats them (black boxes with the listed operations).
-/

/-- Error kinds of the operation, one per `bail!`/`anyhow!` site in
`dot_crate` that the claims mention. -/
inductive Err where
  | nameMismatch (supplied : List Char)
  | inferFailed
  | manifestParse
  | workspaceNotSupported
  | missingPackage
  | manifestNameMismatch (found expected : List Char)
  | entryOutsideRoot
  | sourceNotUtf8
  | missingManifest
deriving DecidableEq

/-- A tar header, abstracted: the declared entry size, the checksum field,
and `meta` standing for all remaining header bytes. -/
structure Header where
  size : Nat
  cksum : Nat
  meta : Nat
deriving DecidableEq

/-- One input archive entry: its path (as components), its header, and its
raw byte content. -/
structure Entry where
  path : List (List Char)
  header : Header
  content : List Nat
deriving DecidableEq

/-- One entry as appended to the output archive. -/
structure OutEntry where
  header : Header
  path : List (List Char)
  content : List Nat
deriving DecidableEq

/-- The package sub-record of a manifest (`cargo_toml::Package`): the code
only reads and writes its `name`. -/
structure Package where
  name : List Char
deriving DecidableEq

/-- A parsed manifest (`cargo_toml::Manifest`): `workspace` is
`manifest.workspace.is_some()`, `package` the optional package record. -/
structure Manifest where
  workspace : Bool
  package : Option Package
deriving DecidableEq

/-- Which branch of the per-entry `if` in the transcode loop handled an
entry: the `Cargo.toml` branch, the `.rs`-rewrite branch, or passthrough. -/
inductive Branch where
  | manifest
  | rewriteRs
  | pass
deriving DecidableEq

/-- The external black boxes the spec lists: manifest parse, manifest
serialize, and the tar header checksum (a function of the header's size
field and its remaining bytes `meta`). -/
structure Env where
  parseMan : List Nat → Option Manifest
  serMan : Manifest → List Nat
  cksumOf : Nat → Nat → Nat

/-- Split a list at the first occurrence of `c` (Rust `str::find`):
returns the part strictly before and strictly after that occurrence. -/
def splitFirst (c : Char) : List Char → Option (List Char × List Char)
  | [] => none
  | x :: xs =>
    if x = c then some ([], xs)
    else (splitFirst c xs).map fun p => (x :: p.1, p.2)

/-- Split a list at the last occurrence of `c` (Rust `str::rfind`). -/
def splitLast (c : Char) (s : List Char) : Option (List Char × List Char) :=
  (splitFirst c s.reverse).map fun p => (p.2.reverse, p.1.reverse)

/-- Name inference from the `.crate` file name (`src/lib.rs` lines 68-77):
find the first `.`, then the last `-` before it; the part before the `-`
is the candidate name, the part between `-` and `.` the candidate version,
which must be non-empty and all ASCII digits; the name must be non-empty. -/
def inferName (fn : List Char) : Option (List Char) :=
  match splitFirst '.' fn with
  | none => none
  | some (beforeDot, _) =>
    match splitLast '-' beforeDot with
    | none => none
    | some (nm, major) =>
      if nm ≠ [] ∧ major ≠ [] ∧ major.all Char.isDigit then some nm else none

/-- Resolution of the old crate name (`src/lib.rs` lines 78-89): a given
old name must coincide with the inferred one, otherwise a mismatch error;
with no given name the inferred one is used, and its absence is an
inference-failure error. -/
def resolveName (fn : List Char) (given : Option (List Char)) : Except Err (List Char) :=
  match given with
  | some n => if inferName fn = some n then Except.ok n else Except.error (Err.nameMismatch n)
  | none =>
    match inferName fn with
    | some n => Except.ok n
    | none => Except.error Err.inferFailed

/-- `PathBuf::set_extension("")` on a single-component file name: drop the
part after the last `.`, unless the name starts with that `.` (a dotfile
has no extension in Rust). -/
def stripExt (fn : List Char) : List Char :=
  match splitLast '.' fn with
  | none => fn
  | some (pre, _) => if pre = [] then fn else pre

/-- The substitution pattern of `src/lib.rs` lines 130-131: a space, the
name with hyphens replaced by underscores, then `::`. -/
def mkPat (n : List Char) : List Char :=
  ' ' :: ((n.map fun c => if c = '-' then '_' else c) ++ [':', ':'])

/-- Fuelled scanner behind `replaceAll`: at each position, if the pattern
is a prefix there, emit the replacement and skip the pattern's length,
else keep one character and move on. Fuel only makes the recursion
structural; `replaceAll` supplies enough fuel for it never to run out. -/
def repFuel (pat sub : List Char) : Nat → List Char → List Char
  | _, [] => []
  | 0, s => s
  | n + 1, c :: rest =>
    if pat.isPrefixOf (c :: rest) then sub ++ repFuel pat sub n ((c :: rest).drop pat.length)
    else c :: repFuel pat sub n rest

/-- Rust `str::replace`: replace every non-overlapping occurrence of
`pat`, scanning left to right. -/
def replaceAll (pat sub s : List Char) : List Char :=
  repFuel pat sub s.length s

/-- Rust `str::contains` for a string pattern: some occurrence of `pat`
begins at some position of `s`. -/
def hasSub (pat : List Char) : List Char → Bool
  | [] => pat.isEmpty
  | c :: rest => pat.isPrefixOf (c :: rest) || hasSub pat rest

/-- The `.rs` content rewrite of `src/lib.rs` lines 229-233: if the "from"
pattern occurs, replace all its occurrences by the "to" pattern, else
return the text unchanged. -/
def rewriteText (oldN newN text : List Char) : List Char :=
  if hasSub (mkPat oldN) text then replaceAll (mkPat oldN) (mkPat newN) text else text

/-- UTF-8 decoding (the validation done by Rust `read_to_string`): strict,
rejecting overlong forms, surrogates and out-of-range scalars. Returns
`none` on any invalid byte sequence. -/
def utf8Decode : List Nat → Option (List Char)
  | [] => some []
  | b0 :: rest =>
    if b0 < 0x80 then (utf8Decode rest).map fun cs => Char.ofNat b0 :: cs
    else if b0 < 0xC2 then none
    else if b0 < 0xE0 then
      match rest with
      | [] => none
      | b1 :: rest1 =>
        if 0x80 ≤ b1 ∧ b1 < 0xC0 then
          (utf8Decode rest1).map fun cs => Char.ofNat ((b0 - 0xC0) * 0x40 + (b1 - 0x80)) :: cs
        else none
    else if b0 < 0xF0 then
      match rest with
      | b1 :: b2 :: rest2 =>
        if (0x80 ≤ b1 ∧ b1 < 0xC0) ∧ (0x80 ≤ b2 ∧ b2 < 0xC0) then
          if 0x800 ≤ (b0 - 0xE0) * 0x1000 + (b1 - 0x80) * 0x40 + (b2 - 0x80) ∧
              ¬ (0xD800 ≤ (b0 - 0xE0) * 0x1000 + (b1 - 0x80) * 0x40 + (b2 - 0x80) ∧
                (b0 - 0xE0) * 0x1000 + (b1 - 0x80) * 0x40 + (b2 - 0x80) < 0xE000) then
            (utf8Decode rest2).map fun cs =>
              Char.ofNat ((b0 - 0xE0) * 0x1000 + (b1 - 0x80) * 0x40 + (b2 - 0x80)) :: cs
          else none
        else none
      | _ => none
    else if b0 < 0xF5 then
      match rest with
      | b1 :: b2 :: b3 :: rest3 =>
        if (0x80 ≤ b1 ∧ b1 < 0xC0) ∧ (0x80 ≤ b2 ∧ b2 < 0xC0) ∧ (0x80 ≤ b3 ∧ b3 < 0xC0) then
          if 0x10000 ≤ (b0 - 0xF0) * 0x40000 + (b1 - 0x80) * 0x1000 + (b2 - 0x80) * 0x40 + (b3 - 0x80) ∧
              (b0 - 0xF0) * 0x40000 + (b1 - 0x80) * 0x1000 + (b2 - 0x80) * 0x40 + (b3 - 0x80) < 0x110000 then
            (utf8Decode rest3).map fun cs =>
              Char.ofNat ((b0 - 0xF0) * 0x40000 + (b1 - 0x80) * 0x1000 + (b2 - 0x80) * 0x40 + (b3 - 0x80)) :: cs
          else none
        else none
      | _ => none
    else none

/-- UTF-8 encoding of a single scalar value. -/
def encodeChar (c : Char) : List Nat :=
  let v := c.toNat
  if v < 0x80 then [v]
  else if v < 0x800 then [0xC0 + v / 0x40, 0x80 + v % 0x40]
  else if v < 0x10000 then [0xE0 + v / 0x1000, 0x80 + (v / 0x40) % 0x40, 0x80 + v % 0x40]
  else [0xF0 + v / 0x40000, 0x80 + (v / 0x1000) % 0x40, 0x80 + (v / 0x40) % 0x40, 0x80 + v % 0x40]

/-- UTF-8 encoding of a text (`str::as_bytes` of the rewritten string). -/
def utf8Encode (s : List Char) : List Nat :=
  (s.map encodeChar).flatten

/-- `Path::file_name` on a component path: its last component. -/
def fileName (p : List (List Char)) : Option (List Char) :=
  p.getLast?

/-- `Path::extension`: part of the last component after its last `.`,
absent for dotfile-style components. -/
def fileExt (p : List (List Char)) : Option (List Char) :=
  match p.getLast? with
  | none => none
  | some comp =>
    match splitLast '.' comp with
    | none => none
    | some (pre, ext) => if pre = [] then none else some ext

/-- `path.starts_with("src")` on a component path: first component is
`src` (Rust `Path::starts_with` compares whole components). -/
def startsWithSrc (p : List (List Char)) : Bool :=
  p.head? = some ['s', 'r', 'c']

/-- The repackaged file name (`src/lib.rs` line 91):
`old_fn.replace(old_name, new_name)`. -/
def repackagedFn (oldFn oldN newN : List Char) : List Char :=
  replaceAll oldN newN oldFn

/-- The repackaged file's full path (`with_file_name`, line 92): the input
file's directory with the repackaged file name as last component. -/
def outputPath (dir : List (List Char)) (oldFn oldN newN : List Char) : List (List Char) :=
  dir ++ [repackagedFn oldFn oldN newN]

/-- The new base directory (`src/lib.rs` lines 140-144): the repackaged
file name with its extension stripped. -/
def newBaseDir (oldFn oldN newN : List Char) : List Char :=
  stripExt (repackagedFn oldFn oldN newN)

/-- Per-invocation constants of the transcode loop. -/
structure Cfg where
  oldBase : List Char
  newBase : List Char
  oldN : List Char
  newN : List Char

/-- The `Cfg` as `dot_crate` computes it from the input file name and the
resolved names (`src/lib.rs` lines 135-144). -/
def mkCfg (oldFn oldN newN : List Char) : Cfg :=
  { oldBase := stripExt oldFn
    newBase := newBaseDir oldFn oldN newN
    oldN := oldN
    newN := newN }

/-- The path component `Cargo.toml`. -/
def cargoToml : List Char :=
  ['C', 'a', 'r', 'g', 'o', '.', 't', 'o', 'm', 'l']

/-- The `rs` extension component. -/
def rsExt : List Char :=
  ['r', 's']

/-- The `Cargo.toml` branch of the loop (`src/lib.rs` lines 163-198):
parse, reject workspaces, require a package whose name is the old name,
rename it, re-serialize, set the header size to the new byte length and
recompute the header checksum. -/
def manifestStep (env : Env) (cfg : Cfg) (h : Header) (path : List (List Char))
    (content : List Nat) : Except Err (OutEntry × Branch) :=
  match env.parseMan content with
  | none => Except.error Err.manifestParse
  | some m =>
    if m.workspace then Except.error Err.workspaceNotSupported
    else
      match m.package with
      | none => Except.error Err.missingPackage
      | some p =>
        if p.name = cfg.oldN then
          let bytes := env.serMan { workspace := m.workspace, package := some { name := cfg.newN } }
          let h1 : Header := { h with size := bytes.length }
          let h2 : Header := { h1 with cksum := env.cksumOf h1.size h1.meta }
          Except.ok (⟨h2, path, bytes⟩, Branch.manifest)
        else Except.error (Err.manifestNameMismatch p.name cfg.oldN)

/-- The `.rs`-rewrite branch of the loop (`src/lib.rs` lines 199-236):
read the content as UTF-8 text (failure aborts), rewrite it, and set the
header size to the byte length of what is written. -/
def rsStep (cfg : Cfg) (h : Header) (path : List (List Char)) (content : List Nat) :
    Except Err (OutEntry × Branch) :=
  match utf8Decode content with
  | none => Except.error Err.sourceNotUtf8
  | some text =>
    let outBytes :=
      if hasSub (mkPat cfg.oldN) text then utf8Encode (rewriteText cfg.oldN cfg.newN text)
      else content
    Except.ok (⟨{ h with size := outBytes.length }, path, outBytes⟩, Branch.rewriteRs)

/-- Processing of one archive entry (`src/lib.rs` lines 152-241): strip
the old base directory from the path (failure is fatal), join onto the
new base directory, then dispatch on the rewritten path. -/
def processEntry (env : Env) (cfg : Cfg) (e : Entry) : Except Err (OutEntry × Branch) :=
  match e.path with
  | [] => Except.error Err.entryOutsideRoot
  | c :: rest =>
    if c = cfg.oldBase then
      let path := cfg.newBase :: rest
      if fileName path = some cargoToml then manifestStep env cfg e.header path e.content
      else if ¬ startsWithSrc path ∧ fileExt path = some rsExt then
        rsStep cfg e.header path e.content
      else Except.ok (⟨e.header, path, e.content⟩, Branch.pass)
    else Except.error Err.entryOutsideRoot

/-- The transcode loop (`src/lib.rs` lines 148-242): process entries in
order, abort on the first error, and record whether any entry went
through the `Cargo.toml` branch (`got_cargo_toml`). -/
def runLoop (env : Env) (cfg : Cfg) : List Entry → Except Err (List OutEntry × Bool)
  | [] => Except.ok ([], false)
  | e :: es =>
    match processEntry env cfg e with
    | Except.error er => Except.error er
    | Except.ok (o, br) =>
      match runLoop env cfg es with
      | Except.error er => Except.error er
      | Except.ok (os, got) => Except.ok (o :: os, (br = Branch.manifest) || got)

/-- The whole `dot_crate` operation on an already-read archive: resolve
the old name, create the output file, run the loop, and on a loop that
finishes without a `Cargo.toml` entry remove the output file and fail.
The `Bool` of the result records whether the output file is still on disk
when the operation returns (`src/lib.rs` lines 93, 244-250). -/
def dotCrate (env : Env) (oldFn : List Char) (given : Option (List Char)) (newN : List Char)
    (entries : List Entry) : Except Err (List OutEntry) × Bool :=
  match resolveName oldFn given with
  | Except.error e => (Except.error e, false)
  | Except.ok oldN =>
    match runLoop env (mkCfg oldFn oldN newN) entries with
    | Except.error e => (Except.error e, true)
    | Except.ok (outs, got) =>
      if got then (Except.ok outs, true) else (Except.error Err.missingManifest, false)

theorem repFuel_eq (pat sub : List Char) (hp : pat ≠ []) :
    ∀ n m s, s.length ≤ n → s.length ≤ m → repFuel pat sub n s = repFuel pat sub m s := by
  intro n
  induction n with
  | zero =>
    intro m s hn _
    have hs : s = [] := List.length_eq_zero.mp (Nat.le_zero.mp hn)
    subst hs
    cases m <;> rfl
  | succ n ih =>
    intro m s hn hm
    cases s with
    | nil => cases m <;> rfl
    | cons c rest =>
      cases m with
      | zero => simp at hm
      | succ m' =>
        have hpat : 1 ≤ pat.length := List.length_pos.mpr hp
        have hrn : rest.length ≤ n := by simpa using hn
        have hrm : rest.length ≤ m' := by simpa using hm
        have hdrop : ((c :: rest).drop pat.length).length ≤ rest.length := by
          rw [List.length_drop]
          simp only [List.length_cons]
          omega
        simp only [repFuel]
        by_cases h : pat.isPrefixOf (c :: rest)
        · rw [if_pos h, if_pos h]
          exact congrArg (sub ++ ·) (ih m' _ (hdrop.trans hrn) (hdrop.trans hrm))
        · rw [if_neg h, if_neg h]
          exact congrArg (c :: ·) (ih m' rest hrn hrm)

theorem replaceAll_nil (pat sub : List Char) : replaceAll pat sub [] = [] := rfl

theorem replaceAll_cons_of_pos (pat sub : List Char) (hp : pat ≠ []) (c : Char)
    (rest : List Char) (h : pat.isPrefixOf (c :: rest)) :
    replaceAll pat sub (c :: rest) = sub ++ replaceAll pat sub ((c :: rest).drop pat.length) := by
  have hpat : 1 ≤ pat.length := List.length_pos.mpr hp
  have hdrop : ((c :: rest).drop pat.length).length ≤ rest.length := by
    rw [List.length_drop]
    simp only [List.length_cons]
    omega
  unfold replaceAll
  rw [show (c :: rest).length = rest.length + 1 from rfl]
  simp only [repFuel, if_pos h]
  exact congrArg (sub ++ ·) (repFuel_eq pat sub hp _ _ _ hdrop le_rfl)

theorem replaceAll_cons_of_neg (pat sub : List Char) (c : Char) (rest : List Char)
    (h : ¬ pat.isPrefixOf (c :: rest)) :
    replaceAll pat sub (c :: rest) = c :: replaceAll pat sub rest := by
  unfold replaceAll
  rw [show (c :: rest).length = rest.length + 1 from rfl]
  simp only [repFuel, if_neg h]

theorem replaceAll_of_hasSub_eq_false (pat sub : List Char) :
    ∀ s, hasSub pat s = false → replaceAll pat sub s = s := by
  intro s
  induction s with
  | nil => intro _; rfl
  | cons c rest ih =>
    intro h
    unfold hasSub at h
    rw [Bool.or_eq_false_iff] at h
    rw [replaceAll_cons_of_neg pat sub c rest (by simp [h.1]), ih h.2]

theorem hasSub_append_pat (pat : List Char) : ∀ a b, hasSub pat (a ++ pat ++ b) = true := by
  intro a
  induction a with
  | nil =>
    intro b
    cases pat with
    | nil => cases b <;> simp [hasSub, List.isPrefixOf]
    | cons p pt =>
      show hasSub (p :: pt) ((p :: pt) ++ b) = true
      have hpre : (p :: pt).isPrefixOf ((p :: pt) ++ b) := by
        rw [List.isPrefixOf_iff_prefix]
        exact List.prefix_append (p :: pt) b
      show (((p :: pt).isPrefixOf ((p :: pt) ++ b)) || hasSub (p :: pt) (pt ++ b)) = true
      rw [hpre, Bool.true_or]
  | cons x a' ih =>
    intro b
    show hasSub pat (x :: (a' ++ pat ++ b)) = true
    show ((pat.isPrefixOf (x :: (a' ++ pat ++ b))) || hasSub pat (a' ++ pat ++ b)) = true
    rw [ih b, Bool.or_true]

theorem replaceAll_append (pat sub : List Char) (hp : pat ≠ []) :
    ∀ a b, (∀ i, i < a.length → ¬ pat.isPrefixOf ((a ++ pat ++ b).drop i)) →
      replaceAll pat sub (a ++ pat ++ b) = a ++ sub ++ replaceAll pat sub b := by
  intro a
  induction a with
  | nil =>
    intro b _
    simp only [List.nil_append]
    cases pat with
    | nil => exact absurd rfl hp
    | cons p pt =>
      have hpre : (p :: pt).isPrefixOf ((p :: pt) ++ b) := by
        rw [List.isPrefixOf_iff_prefix]
        exact List.prefix_append (p :: pt) b
      have hstep := replaceAll_cons_of_pos (p :: pt) sub (List.cons_ne_nil p pt) p (pt ++ b)
        (by simp only [List.cons_append] at hpre; exact hpre)
      have hdrop : (p :: (pt ++ b)).drop (p :: pt).length = b := by
        rw [show (p :: pt).length = pt.length + 1 from rfl, List.drop_succ_cons]
        exact List.drop_left pt b
      rw [hdrop] at hstep
      simpa using hstep
  | cons x a' ih =>
    intro b h
    have h0 : ¬ pat.isPrefixOf (x :: (a' ++ pat ++ b)) := by
      have := h 0 (by simp)
      simpa using this
    show replaceAll pat sub (x :: (a' ++ pat ++ b)) = (x :: a') ++ sub ++ replaceAll pat sub b
    rw [replaceAll_cons_of_neg pat sub x (a' ++ pat ++ b) h0]
    rw [ih b (fun i hi => by
      have := h (i + 1) (by simpa using Nat.succ_lt_succ hi)
      simpa using this)]
    simp

theorem splitFirst_eq_some_iff (c : Char) :
    ∀ s a b, splitFirst c s = some (a, b) ↔ s = a ++ c :: b ∧ c ∉ a := by
  intro s
  induction s with
  | nil =>
    intro a b
    constructor
    · intro h
      exact absurd h (by simp [splitFirst])
    · rintro ⟨h, -⟩
      exact absurd h (by simp)
  | cons x xs ih =>
    intro a b
    unfold splitFirst
    by_cases hx : x = c
    · subst hx
      rw [if_pos rfl]
      constructor
      · intro h
        simp only [Option.some.injEq, Prod.mk.injEq] at h
        obtain ⟨ha, hb⟩ := h
        subst ha
        subst hb
        exact ⟨rfl, List.not_mem_nil x⟩
      · rintro ⟨heq, hmem⟩
        cases a with
        | nil =>
          simp only [List.nil_append, List.cons.injEq] at heq
          rw [heq.2]
        | cons a0 a' =>
          simp only [List.cons_append, List.cons.injEq] at heq
          exact absurd (heq.1 ▸ List.mem_cons_self a0 a') hmem
    · rw [if_neg hx]
      rw [Option.map_eq_some']
      constructor
      · rintro ⟨⟨p1, p2⟩, hsp, heq⟩
        simp only [Prod.mk.injEq] at heq
        obtain ⟨ha, hb⟩ := heq
        subst ha
        subst hb
        obtain ⟨hxs, hmem⟩ := (ih p1 p2).mp hsp
        subst hxs
        refine ⟨by simp, ?_⟩
        intro hc
        rcases List.mem_cons.mp hc with h1 | h1
        · exact hx h1.symm
        · exact hmem h1
      · rintro ⟨heq, hmem⟩
        cases a with
        | nil =>
          simp only [List.nil_append, List.cons.injEq] at heq
          exact absurd heq.1 hx
        | cons a0 a' =>
          simp only [List.cons_append, List.cons.injEq] at heq
          refine ⟨(a', b), (ih a' b).mpr ⟨heq.2, fun hc => hmem (List.mem_cons_of_mem a0 hc)⟩, ?_⟩
          simp [heq.1]

theorem splitLast_eq_some_iff (c : Char) (s a b : List Char) :
    splitLast c s = some (a, b) ↔ s = a ++ c :: b ∧ c ∉ b := by
  unfold splitLast
  rw [Option.map_eq_some']
  constructor
  · rintro ⟨⟨p1, p2⟩, hsp, heq⟩
    simp only [Prod.mk.injEq] at heq
    obtain ⟨ha, hb⟩ := heq
    subst ha
    subst hb
    obtain ⟨hrev, hmem⟩ := (splitFirst_eq_some_iff c s.reverse p1 p2).mp hsp
    constructor
    · have h2 : s.reverse.reverse = (p1 ++ c :: p2).reverse := congrArg List.reverse hrev
      rw [List.reverse_reverse] at h2
      rw [h2]
      simp
    · simpa [List.mem_reverse] using hmem
  · rintro ⟨heq, hmem⟩
    refine ⟨(b.reverse, a.reverse), (splitFirst_eq_some_iff c s.reverse b.reverse a.reverse).mpr
      ⟨by rw [heq]; simp, by simpa [List.mem_reverse] using hmem⟩, ?_⟩
    simp

theorem runLoop_ok_mem (env : Env) (cfg : Cfg) :
    ∀ entries r, runLoop env cfg entries = Except.ok r →
      ∀ e ∈ entries, ∃ o, processEntry env cfg e = Except.ok o := by
  intro entries
  induction entries with
  | nil =>
    intro r _ e he
    exact absurd he (List.not_mem_nil e)
  | cons f fs ih =>
    intro r hr e he
    unfold runLoop at hr
    cases hpf : processEntry env cfg f with
    | error er =>
      rw [hpf] at hr
      exact absurd hr (by simp)
    | ok o =>
      obtain ⟨o1, br⟩ := o
      rw [hpf] at hr
      cases hrl : runLoop env cfg fs with
      | error er =>
        rw [hrl] at hr
        exact absurd hr (by simp)
      | ok r2 =>
        rcases List.mem_cons.mp he with h1 | h1
        · subst h1
          exact ⟨(o1, br), hpf⟩
        · exact ih r2 hrl e h1

theorem runLoop_of_no_manifest (env : Env) (cfg : Cfg) :
    ∀ entries,
      (∀ e ∈ entries, ∃ o, processEntry env cfg e = Except.ok o ∧ o.2 ≠ Branch.manifest) →
      ∃ outs, runLoop env cfg entries = Except.ok (outs, false) := by
  intro entries
  induction entries with
  | nil => exact fun _ => ⟨[], rfl⟩
  | cons f fs ih =>
    intro h
    obtain ⟨⟨o1, br⟩, hpf, hbr⟩ := h f (List.mem_cons_self f fs)
    obtain ⟨outs, hrl⟩ := ih fun e he => h e (List.mem_cons_of_mem f he)
    refine ⟨o1 :: outs, ?_⟩
    unfold runLoop
    rw [hpf, hrl]
    simp [hbr]

theorem inferName_eq_some_iff (fn nm : List Char) :
    inferName fn = some nm ↔
      ∃ ver rest, fn = nm ++ '-' :: (ver ++ '.' :: rest) ∧ nm ≠ [] ∧ ver ≠ [] ∧
        ver.all Char.isDigit = true ∧ '.' ∉ nm := by
  constructor
  · intro h
    unfold inferName at h
    rcases hsf : splitFirst '.' fn with - | ⟨beforeDot, rest0⟩
    · rw [hsf] at h
      exact Option.noConfusion h
    · rw [hsf] at h
      dsimp only at h
      rcases hsl : splitLast '-' beforeDot with - | ⟨nm', major⟩
      · rw [hsl] at h
        exact Option.noConfusion h
      · rw [hsl] at h
        dsimp only at h
        by_cases hcond : nm' ≠ [] ∧ major ≠ [] ∧ major.all Char.isDigit
        · rw [if_pos hcond] at h
          have hnm : nm' = nm := by injection h
          subst hnm
          obtain ⟨hfn, hdot⟩ := (splitFirst_eq_some_iff '.' fn beforeDot rest0).mp hsf
          obtain ⟨hbd, -⟩ := (splitLast_eq_some_iff '-' beforeDot nm' major).mp hsl
          refine ⟨major, rest0, ?_, hcond.1, hcond.2.1, hcond.2.2, ?_⟩
          · rw [hfn, hbd]
            simp
          · intro hc
            exact hdot (hbd ▸ List.mem_append_left _ hc)
        · rw [if_neg hcond] at h
          exact Option.noConfusion h
  · rintro ⟨ver, rest, hfn, hnm, hver, hdig, hdot⟩
    have hdotver : '.' ∉ ver := by
      intro hc
      have := List.all_eq_true.mp hdig '.' hc
      exact absurd this (by decide)
    have hdashver : '-' ∉ ver := by
      intro hc
      have := List.all_eq_true.mp hdig '-' hc
      exact absurd this (by decide)
    have hsf : splitFirst '.' fn = some (nm ++ '-' :: ver, rest) := by
      rw [splitFirst_eq_some_iff]
      refine ⟨by rw [hfn]; simp, ?_⟩
      intro hc
      rcases List.mem_append.mp hc with h1 | h1
      · exact hdot h1
      · rcases List.mem_cons.mp h1 with h2 | h2
        · exact absurd h2 (by decide)
        · exact hdotver h2
    have hsl : splitLast '-' (nm ++ '-' :: ver) = some (nm, ver) := by
      rw [splitLast_eq_some_iff]
      exact ⟨rfl, hdashver⟩
    unfold inferName
    rw [hsf]
    dsimp only
    rw [hsl]
    dsimp only
    rw [if_pos ⟨hnm, hver, hdig⟩]

theorem resolveName_ok_ne_nil (fn : List Char) (given : Option (List Char)) (nm : List Char)
    (h : resolveName fn given = Except.ok nm) : nm ≠ [] := by
  unfold resolveName at h
  cases given with
  | some g =>
    dsimp only at h
    by_cases hg : inferName fn = some g
    · rw [if_pos hg] at h
      have : g = nm := by injection h
      subst this
      obtain ⟨ver, rest, -, hnm, -⟩ := (inferName_eq_some_iff fn g).mp hg
      exact hnm
    · rw [if_neg hg] at h
      exact Except.noConfusion h
  | none =>
    dsimp only at h
    rcases hi : inferName fn with - | g
    · rw [hi] at h
      exact Except.noConfusion h
    · rw [hi] at h
      dsimp only at h
      have : g = nm := by injection h
      subst this
      obtain ⟨ver, rest, -, hnm, -⟩ := (inferName_eq_some_iff fn g).mp hi
      exact hnm

/-- C5: name inference succeeds exactly on file names of the form
`<name>-<version>.<rest>` (first `.`, last `-` before it, name and version
non-empty, version all ASCII digits), yielding the name; a caller-supplied
old name must equal the inferred one exactly, so `netscape-0.1.0.crate`
with expected name `net` fails with the name-mismatch error; and a
resolved old name is never empty. -/
theorem c5_name_inference :
    (∀ fn nm, inferName fn = some nm ↔
      ∃ ver rest, fn = nm ++ '-' :: (ver ++ '.' :: rest) ∧ nm ≠ [] ∧ ver ≠ [] ∧
        ver.all Char.isDigit = true ∧ '.' ∉ nm)
    ∧ (∀ fn given nm, resolveName fn (some given) = Except.ok nm ↔
        (inferName fn = some given ∧ nm = given))
    ∧ resolveName "netscape-0.1.0.crate".data (some "net".data) =
        Except.error (Err.nameMismatch "net".data)
    ∧ (∀ fn given nm, resolveName fn given = Except.ok nm → nm ≠ []) := by
  refine ⟨inferName_eq_some_iff, ?_, by rfl, resolveName_ok_ne_nil⟩
  intro fn given nm
  unfold resolveName
  dsimp only
  by_cases hg : inferName fn = some given
  · rw [if_pos hg]
    constructor
    · intro h
      have : given = nm := by injection h
      exact ⟨hg, this.symm⟩
    · rintro ⟨-, rfl⟩
      rfl
  · rw [if_neg hg]
    constructor
    · intro h
      exact Except.noConfusion h
    · rintro ⟨h1, -⟩
      exact absurd h1 hg

/-- Witness for C5 at a concrete input: the resolved name for
`foo-1.crate` with no caller-supplied name is `foo`, which is non-empty. -/
theorem c5_name_inference_witness : "foo".data ≠ ([] : List Char) :=
  c5_name_inference.2.2.2 "foo-1.crate".data none "foo".data rfl

/-- C9: with a caller-supplied old name, failed inference surfaces as the
name-mismatch error naming the supplied value, and the inference-failure
error can only arise when no name was supplied. -/
theorem c9_mismatch_precedes_inference :
    (∀ fn nm, inferName fn = none →
      resolveName fn (some nm) = Except.error (Err.nameMismatch nm))
    ∧ (∀ fn given, resolveName fn given = Except.error Err.inferFailed → given = none) := by
  constructor
  · intro fn nm h
    unfold resolveName
    dsimp only
    rw [if_neg (by rw [h]; intro hc; exact Option.noConfusion hc)]
  · intro fn given h
    cases given with
    | none => rfl
    | some g =>
      unfold resolveName at h
      dsimp only at h
      by_cases hg : inferName fn = some g
      · rw [if_pos hg] at h
        exact Except.noConfusion h
      · rw [if_neg hg] at h
        have : Err.nameMismatch g = Err.inferFailed := by injection h
        exact Err.noConfusion this

/-- Witness for C9 at a concrete input: `noversion` has no inferable name,
so supplying old name `net` yields the mismatch error naming `net`. -/
theorem c9_mismatch_precedes_inference_witness :
    resolveName "noversion".data (some "net".data) =
      Except.error (Err.nameMismatch "net".data) :=
  c9_mismatch_precedes_inference.1 "noversion".data "net".data rfl

/-- C2: the rewriter leaves pattern-free content byte-identical, replaces
every occurrence of the space-prefixed `old::` pattern by the `new::`
pattern and changes nothing else, and on the spec's concrete examples
(old name `toml`, new name `newname`) behaves as stated. -/
theorem c2_rewrite_all_occurrences :
    (∀ oldN newN text, hasSub (mkPat oldN) text = false → rewriteText oldN newN text = text)
    ∧ (∀ oldN newN a b,
        (∀ i, i < a.length → ¬ (mkPat oldN).isPrefixOf ((a ++ mkPat oldN ++ b).drop i)) →
        rewriteText oldN newN (a ++ mkPat oldN ++ b) =
          a ++ mkPat newN ++ rewriteText oldN newN b)
    ∧ rewriteText "toml".data "newname".data "use foo_toml::bar;".data = "use foo_toml::bar;".data
    ∧ rewriteText "toml".data "newname".data "use foo::toml::bar;".data = "use foo::toml::bar;".data
    ∧ rewriteText "toml".data "newname".data " toml::some_func(a)".data =
        " newname::some_func(a)".data := by
  refine ⟨?_, ?_, by decide, by decide, by decide⟩
  · intro oldN newN text h
    simp [rewriteText, h]
  · intro oldN newN a b h
    have hmk : mkPat oldN ≠ [] := by simp [mkPat]
    unfold rewriteText
    rw [hasSub_append_pat (mkPat oldN) a b]
    rw [if_pos rfl]
    rw [replaceAll_append (mkPat oldN) (mkPat newN) hmk a b h]
    by_cases hb : hasSub (mkPat oldN) b
    · rw [if_pos hb]
    · rw [if_neg hb]
      rw [replaceAll_of_hasSub_eq_false (mkPat oldN) (mkPat newN) b
        (Bool.not_eq_true _ ▸ hb)]

/-- Witness for C2 at a concrete input: one pattern occurrence between a
pattern-free head and a tail is replaced in place. -/
theorem c2_rewrite_all_occurrences_witness :
    rewriteText "toml".data "newname".data
        ("let y =".data ++ mkPat "toml".data ++ "g();".data) =
      "let y =".data ++ mkPat "newname".data ++
        rewriteText "toml".data "newname".data "g();".data :=
  c2_rewrite_all_occurrences.2.1 "toml".data "newname".data "let y =".data "g();".data
    (by decide)

/-- C7 counterexample: with old name `aa` (legitimately inferable from the
file name `aa-1.aa`) and new name `b`, the code's file-name derivation
replaces BOTH occurrences of `aa`, yielding `b-1.b`, not the
first-occurrence-only result `b-1.aa`. -/
theorem c7_counterexample :
    repackagedFn "aa-1.aa".data "aa".data "b".data = "b-1.b".data
    ∧ "b-1.b".data ≠ "b-1.aa".data
    ∧ inferName "aa-1.aa".data = some "aa".data := by
  refine ⟨by decide, by decide, by decide⟩

/-- C7 (amended): the output file name is the input file name with EVERY
(leftmost-first, non-overlapping) occurrence of the old name replaced by
the new name, and the output file sits in the input file's directory. -/
theorem c7_replace_all_semantics :
    (∀ dir oldFn oldN newN, outputPath dir oldFn oldN newN =
        dir ++ [repackagedFn oldFn oldN newN])
    ∧ (∀ oldFn oldN newN, hasSub oldN oldFn = false → repackagedFn oldFn oldN newN = oldFn)
    ∧ (∀ oldN newN a b, oldN ≠ [] →
        (∀ i, i < a.length → ¬ oldN.isPrefixOf ((a ++ oldN ++ b).drop i)) →
        repackagedFn (a ++ oldN ++ b) oldN newN = a ++ newN ++ repackagedFn b oldN newN) := by
  refine ⟨fun dir oldFn oldN newN => rfl, ?_, ?_⟩
  · intro oldFn oldN newN h
    exact replaceAll_of_hasSub_eq_false oldN newN oldFn h
  · intro oldN newN a b hne h
    exact replaceAll_append oldN newN hne a b h

/-- Witness for C7's amended claim at a concrete input: the leading
occurrence of `aa` in `aa-1.aa` is replaced and replacement continues in
the remainder. -/
theorem c7_replace_all_semantics_witness :
    repackagedFn ([] ++ "aa".data ++ "-1.aa".data) "aa".data "b".data =
      [] ++ "b".data ++ repackagedFn "-1.aa".data "aa".data "b".data :=
  c7_replace_all_semantics.2.2 "aa".data "b".data [] "-1.aa".data (by decide) (by decide)

theorem manifestStep_ok (env : Env) (cfg : Cfg) (hdr : Header) (path : List (List Char))
    (content : List Nat) (out : OutEntry) (br : Branch)
    (h : manifestStep env cfg hdr path content = Except.ok (out, br)) :
    br = Branch.manifest ∧ out.path = path ∧ out.header.size = out.content.length ∧
      out.header.cksum = env.cksumOf out.header.size out.header.meta := by
  unfold manifestStep at h
  rcases hpm : env.parseMan content with - | m
  · rw [hpm] at h
    exact Except.noConfusion h
  · rw [hpm] at h
    dsimp only at h
    by_cases hw : m.workspace = true
    · rw [if_pos hw] at h
      exact Except.noConfusion h
    · rw [if_neg hw] at h
      rcases hpk : m.package with - | p
      · rw [hpk] at h
        exact Except.noConfusion h
      · rw [hpk] at h
        dsimp only at h
        by_cases hname : p.name = cfg.oldN
        · rw [if_pos hname] at h
          simp only [Except.ok.injEq, Prod.mk.injEq] at h
          obtain ⟨h1, h2⟩ := h
          subst h1
          subst h2
          exact ⟨rfl, rfl, rfl, rfl⟩
        · rw [if_neg hname] at h
          exact Except.noConfusion h

theorem rsStep_ok (cfg : Cfg) (hdr : Header) (path : List (List Char)) (content : List Nat)
    (out : OutEntry) (br : Branch) (h : rsStep cfg hdr path content = Except.ok (out, br)) :
    br = Branch.rewriteRs ∧ out.path = path ∧ out.header.size = out.content.length := by
  unfold rsStep at h
  rcases hdec : utf8Decode content with - | text
  · rw [hdec] at h
    exact Except.noConfusion h
  · rw [hdec] at h
    dsimp only at h
    simp only [Except.ok.injEq, Prod.mk.injEq] at h
    obtain ⟨h1, h2⟩ := h
    subst h1
    subst h2
    exact ⟨rfl, rfl, rfl⟩

theorem processEntry_ok_shape (env : Env) (cfg : Cfg) (e : Entry) (out : OutEntry) (br : Branch)
    (h : processEntry env cfg e = Except.ok (out, br)) :
    ∃ rest, e.path = cfg.oldBase :: rest ∧ out.path = cfg.newBase :: rest ∧
      ((br = Branch.manifest ∧ out.header.size = out.content.length ∧
        out.header.cksum = env.cksumOf out.header.size out.header.meta)
       ∨ (br = Branch.rewriteRs ∧ out.header.size = out.content.length)
       ∨ (br = Branch.pass ∧ out.header = e.header ∧ out.content = e.content)) := by
  unfold processEntry at h
  rcases hp : e.path with - | ⟨c, rest⟩
  · rw [hp] at h
    exact Except.noConfusion h
  · rw [hp] at h
    dsimp only at h
    by_cases hc : c = cfg.oldBase
    · rw [if_pos hc] at h
      by_cases hf : fileName (cfg.newBase :: rest) = some cargoToml
      · rw [if_pos hf] at h
        obtain ⟨hbr, hpath, hsz, hck⟩ := manifestStep_ok env cfg e.header _ e.content out br h
        exact ⟨rest, by rw [hc], hpath, Or.inl ⟨hbr, hsz, hck⟩⟩
      · rw [if_neg hf] at h
        by_cases hrs : ¬ startsWithSrc (cfg.newBase :: rest) ∧
            fileExt (cfg.newBase :: rest) = some rsExt
        · rw [if_pos hrs] at h
          obtain ⟨hbr, hpath, hsz⟩ := rsStep_ok cfg e.header _ e.content out br h
          exact ⟨rest, by rw [hc], hpath, Or.inr (Or.inl ⟨hbr, hsz⟩)⟩
        · rw [if_neg hrs] at h
          simp only [Except.ok.injEq, Prod.mk.injEq] at h
          obtain ⟨h1, h2⟩ := h
          subst h1
          subst h2
          exact ⟨rest, by rw [hc], rfl, Or.inr (Or.inr ⟨rfl, rfl, rfl⟩)⟩
    · rw [if_neg hc] at h
      exact Except.noConfusion h

/-- Test environment whose manifest parser reports a workspace manifest
with a package name that matches nothing. -/
def envW : Env :=
  { parseMan := fun _ => some { workspace := true, package := some { name := "zzz".data } }
    serMan := fun _ => []
    cksumOf := fun _ _ => 0 }

/-- Test environment whose manifest parser reports an ordinary package
named `foo`, serializing to two bytes, with an additive checksum. -/
def envM : Env :=
  { parseMan := fun _ => some { workspace := false, package := some { name := "foo".data } }
    serMan := fun _ => [5, 6]
    cksumOf := fun s m => s + m }

/-- The loop configuration for input `foo-0.crate` renamed `foo` → `bar`. -/
def cfgT : Cfg :=
  mkCfg "foo-0.crate".data "foo".data "bar".data

/-- A `Cargo.toml` entry of the test archive. -/
def entCargo : Entry :=
  { path := ["foo-0".data, "Cargo.toml".data], header := ⟨7, 8, 9⟩, content := [1] }

/-- A passthrough entry of the test archive. -/
def entReadme : Entry :=
  { path := ["foo-0".data, "README".data], header := ⟨3, 4, 5⟩, content := [9] }

/-- A library source entry, under `src/`, whose text contains the
substitution pattern ` foo::`. -/
def entSrcLib : Entry :=
  { path := ["foo-0".data, "src".data, "lib.rs".data], header := ⟨10, 0, 0⟩
    content := " foo::f();".data.map Char.toNat }

/-- An entry whose path is not under the base directory `foo-0`. -/
def entEvil : Entry :=
  { path := ["evil".data], header := ⟨0, 0, 0⟩, content := [] }

/-- An eligible source entry whose content is not valid UTF-8. -/
def entBadUtf8 : Entry :=
  { path := ["foo-0".data, "tests".data, "a.rs".data], header := ⟨1, 0, 0⟩, content := [0xFF] }

/-- C4: an entry routed to the manifest branch whose parsed manifest
carries a workspace marker always fails with the workspace error — the
workspace check runs before any package-name check, so the package record
(and its name) is arbitrary here. -/
theorem c4_workspace_always_rejected :
    ∀ (env : Env) (cfg : Cfg) (e : Entry) (rest : List (List Char)) (m : Manifest),
      e.path = cfg.oldBase :: rest →
      fileName (cfg.newBase :: rest) = some cargoToml →
      env.parseMan e.content = some m →
      m.workspace = true →
      processEntry env cfg e = Except.error Err.workspaceNotSupported := by
  intro env cfg e rest m hpath hfn hparse hws
  unfold processEntry
  rw [hpath]
  dsimp only
  rw [if_pos rfl, if_pos hfn]
  unfold manifestStep
  rw [hparse]
  dsimp only
  rw [if_pos hws]

/-- Witness for C4 at a concrete input: a workspace manifest whose
package name (`zzz`) matches neither old nor new name still yields the
workspace error. -/
theorem c4_workspace_always_rejected_witness :
    processEntry envW cfgT entCargo = Except.error Err.workspaceNotSupported :=
  c4_workspace_always_rejected envW cfgT entCargo ["Cargo.toml".data]
    { workspace := true, package := some { name := "zzz".data } } rfl rfl rfl rfl

/-- C6: an entry whose path is not rooted at the base directory makes its
processing fail with the outside-root error, and the whole loop then
cannot succeed; an entry rooted at the base directory keeps, in the
output, the new base directory followed by the rest of its path. -/
theorem c6_base_dir_rewrite :
    ∀ (env : Env) (cfg : Cfg) (e : Entry),
      ((∀ rest, e.path ≠ cfg.oldBase :: rest) →
        processEntry env cfg e = Except.error Err.entryOutsideRoot)
      ∧ (∀ rest out br, e.path = cfg.oldBase :: rest →
          processEntry env cfg e = Except.ok (out, br) → out.path = cfg.newBase :: rest)
      ∧ (∀ entries r, e ∈ entries →
          processEntry env cfg e = Except.error Err.entryOutsideRoot →
          runLoop env cfg entries ≠ Except.ok r) := by
  intro env cfg e
  refine ⟨?_, ?_, ?_⟩
  · intro hne
    unfold processEntry
    rcases hp : e.path with - | ⟨c, rest⟩
    · rfl
    · dsimp only
      rw [if_neg (fun hc : c = cfg.oldBase => hne rest (by rw [hp, hc]))]
  · intro rest out br hpath h
    obtain ⟨rest', hp', hout, -⟩ := processEntry_ok_shape env cfg e out br h
    rw [hpath] at hp'
    injection hp' with h1 h2
    rw [h2]
    exact hout
  · intro entries r hmem hperr hok
    obtain ⟨o, ho⟩ := runLoop_ok_mem env cfg entries r hok e hmem
    rw [hperr] at ho
    exact Except.noConfusion ho

/-- Witness for C6 at a concrete input: the README entry of `foo-0` comes
out under `bar-0`. -/
theorem c6_base_dir_rewrite_witness :
    (⟨⟨3, 4, 5⟩, ["bar-0".data, "README".data], [9]⟩ : OutEntry).path =
      cfgT.newBase :: ["README".data] :=
  (c6_base_dir_rewrite envW cfgT entReadme).2.1 ["README".data]
    ⟨⟨3, 4, 5⟩, ["bar-0".data, "README".data], [9]⟩ Branch.pass rfl rfl

/-- C8: every entry handled by a transforming branch (manifest or source
rewrite) is emitted with a header whose declared size is the byte length
of the emitted content, and the manifest entry's checksum field is the
checksum of the mutated header. -/
theorem c8_header_bookkeeping :
    ∀ (env : Env) (cfg : Cfg) (e : Entry) (out : OutEntry) (br : Branch),
      processEntry env cfg e = Except.ok (out, br) →
      ((br = Branch.manifest ∨ br = Branch.rewriteRs) →
        out.header.size = out.content.length)
      ∧ (br = Branch.manifest →
          out.header.cksum = env.cksumOf out.header.size out.header.meta) := by
  intro env cfg e out br h
  obtain ⟨rest, -, -, hcases⟩ := processEntry_ok_shape env cfg e out br h
  constructor
  · intro hbr
    rcases hcases with ⟨-, h2, -⟩ | ⟨-, h2⟩ | ⟨h1, -, -⟩
    · exact h2
    · exact h2
    · rcases hbr with hbr | hbr <;> (rw [hbr] at h1; exact Branch.noConfusion h1)
  · intro hbr
    rcases hcases with ⟨-, -, h3⟩ | ⟨h1, -⟩ | ⟨h1, -, -⟩
    · exact h3
    · rw [hbr] at h1
      exact Branch.noConfusion h1
    · rw [hbr] at h1
      exact Branch.noConfusion h1

/-- The output entry the manifest branch produces for `entCargo` in the
`envM` environment. -/
def outCargoM : OutEntry :=
  ⟨⟨2, 11, 9⟩, ["bar-0".data, "Cargo.toml".data], [5, 6]⟩

/-- Witness for C8 at a concrete input: the emitted manifest entry
declares size 2 for its 2 serialized bytes, and its checksum is
`cksumOf size meta`. -/
theorem c8_header_bookkeeping_witness :
    outCargoM.header.size = outCargoM.content.length ∧
      outCargoM.header.cksum = envM.cksumOf outCargoM.header.size outCargoM.header.meta :=
  ⟨(c8_header_bookkeeping envM cfgT entCargo outCargoM Branch.manifest rfl).1 (Or.inl rfl),
   (c8_header_bookkeeping envM cfgT entCargo outCargoM Branch.manifest rfl).2 rfl⟩

/-- C10: an entry routed to the source-rewrite branch whose bytes are not
valid UTF-8 makes its processing fail with the UTF-8 error, and the whole
loop then cannot succeed — it is never passed through silently. -/
theorem c10_invalid_utf8_aborts :
    ∀ (env : Env) (cfg : Cfg) (e : Entry) (rest : List (List Char)),
      e.path = cfg.oldBase :: rest →
      fileName (cfg.newBase :: rest) ≠ some cargoToml →
      startsWithSrc (cfg.newBase :: rest) = false →
      fileExt (cfg.newBase :: rest) = some rsExt →
      utf8Decode e.content = none →
      processEntry env cfg e = Except.error Err.sourceNotUtf8
      ∧ (∀ entries r, e ∈ entries → runLoop env cfg entries ≠ Except.ok r) := by
  intro env cfg e rest hpath hfn hsrc hext hdec
  have h1 : processEntry env cfg e = Except.error Err.sourceNotUtf8 := by
    unfold processEntry
    rw [hpath]
    dsimp only
    rw [if_pos rfl, if_neg hfn, if_pos ⟨by simp [hsrc], hext⟩]
    unfold rsStep
    rw [hdec]
  refine ⟨h1, ?_⟩
  intro entries r hmem hok
  obtain ⟨o, ho⟩ := runLoop_ok_mem env cfg entries r hok e hmem
  rw [h1] at ho
  exact Except.noConfusion ho

/-- Witness for C10 at a concrete input: the lone byte `0xFF` in
`foo-0/tests/a.rs` aborts entry processing with the UTF-8 error. -/
theorem c10_invalid_utf8_aborts_witness :
    processEntry envW cfgT entBadUtf8 = Except.error Err.sourceNotUtf8 :=
  (c10_invalid_utf8_aborts envW cfgT entBadUtf8 ["tests".data, "a.rs".data]
    rfl (by decide) rfl rfl rfl).1

/-- C1 fails on the code: the `src`-exclusion test of `src/lib.rs` line
199 runs on the joined output path, whose first component is the new base
directory and never `src`; so the library entry `foo-0/src/lib.rs`, whose
text contains the pattern ` foo::`, IS routed to the rewrite branch and
emitted with ` foo::` changed to ` bar::` — its bytes are not written
unmodified. -/
theorem c1_src_entry_is_rewritten :
    processEntry envW cfgT entSrcLib =
      Except.ok ((⟨⟨10, 0, 0⟩, ["bar-0".data, "src".data, "lib.rs".data],
        " bar::f();".data.map Char.toNat⟩ : OutEntry), Branch.rewriteRs)
    ∧ " bar::f();".data.map Char.toNat ≠ entSrcLib.content
    ∧ entSrcLib.path = [cfgT.oldBase, "src".data, "lib.rs".data]
    ∧ hasSub (mkPat cfgT.oldN) " foo::f();".data = true := by
  refine ⟨by rfl, by decide, by rfl, by decide⟩

/-- C3 fails as stated: an archive with no `Cargo.toml`-named entry whose
sole entry lies outside the base directory makes the operation fail with
the outside-root error — not the missing-manifest error — and the output
file stays on disk (the `Bool` component is `true`). -/
theorem c3_counterexample :
    dotCrate envW "foo-0.crate".data none "bar".data [entEvil] =
      (Except.error Err.entryOutsideRoot, true)
    ∧ Err.entryOutsideRoot ≠ Err.missingManifest
    ∧ (∀ e ∈ [entEvil], fileName e.path ≠ some cargoToml) := by
  refine ⟨by rfl, by decide, by decide⟩

/-- C3 (amended): when every entry of the archive is processed
successfully and none of them is routed to the manifest branch, the
operation fails with the missing-manifest error and the output file is
removed (the `Bool` component is `false`). -/
theorem c3_missing_manifest_cleanup :
    ∀ (env : Env) (oldFn : List Char) (given : Option (List Char)) (newN : List Char)
      (entries : List Entry) (oldN : List Char),
      resolveName oldFn given = Except.ok oldN →
      (∀ e ∈ entries, ∃ o, processEntry env (mkCfg oldFn oldN newN) e = Except.ok o ∧
        o.2 ≠ Branch.manifest) →
      dotCrate env oldFn given newN entries = (Except.error Err.missingManifest, false) := by
  intro env oldFn given newN entries oldN hres h
  unfold dotCrate
  rw [hres]
  dsimp only
  obtain ⟨outs, hrl⟩ := runLoop_of_no_manifest env (mkCfg oldFn oldN newN) entries h
  rw [hrl]
  rfl

/-- Witness for C3's amended claim at a concrete input: an archive whose
only entry is a passthrough README fails with the missing-manifest error
and no output file remains. -/
theorem c3_missing_manifest_cleanup_witness :
    dotCrate envW "foo-0.crate".data none "bar".data [entReadme] =
      (Except.error Err.missingManifest, false) :=
  c3_missing_manifest_cleanup envW "foo-0.crate".data none "bar".data [entReadme]
    "foo".data rfl
    (fun e he => by
      rw [List.mem_singleton.mp he]
      exact ⟨(⟨⟨3, 4, 5⟩, ["bar-0".data, "README".data], [9]⟩, Branch.pass), rfl, by decide⟩)
